import Mathlib

/-!
Verification development for `skxray/speckle_visibility/xsvs.py`.

The module is shallowly embedded:
* a frame restricted to the ROI pixel order (`(np.ravel(img))[indices]`) is a
  `List ℚ`;
* the numpy arrays `track_level`, `cur`, `img_per_level`, `buf`,
  `speckle_cts`, `speckle_cts_pow` (all of length `num_times` in their first
  axis) are modeled as total functions on the index, mutated by pointwise
  functional update; indices outside the array are never read by the
  translated control flow (the loop guards of the source are kept);
* floating point values that can become non-finite (NaN from `0/0`,
  infinity from `x/0`) are modeled as `Option ℚ`, `none` standing for a
  non-finite value; finite arithmetic is exact rational arithmetic;
* `cur` holds integral values (the source keeps them in a float array); it is
  modeled as `ℤ` so that the python modulo and the negative-index wraparound
  of `buf[.., cur-1]` can be reproduced exactly (`pyIdx`).
-/

/-- Pixel values of one frame restricted to the ROI pixels, in the order of
the `labels` array (the source stores `(np.ravel(img))[indices]`). -/
abbrev Frame := List ℚ

/-- NaN-propagating lift of a binary rational operation: numpy float
arithmetic on possibly non-finite operands, a non-finite operand giving a
non-finite result. -/
def onan2 (f : ℚ → ℚ → ℚ) : Option ℚ → Option ℚ → Option ℚ
  | some a, some b => some (f a b)
  | _, _ => none

/-- Division as numpy performs it on floats: a zero divisor produces a
non-finite value (NaN for `0/0`, an infinity otherwise), modeled as `none`. -/
def qdivNaN (a b : ℚ) : Option ℚ := if b = 0 then none else some (a / b)

/-- Incremental mean update of `_process` (lines 244-248):
`mean + (sample - mean) / n`, with `n` the post-increment frame count
`img_per_level[level]`. -/
def meanUpdQ (n : ℕ) (o hv : ℚ) : ℚ := o + (hv - o) / (n : ℚ)

/-- The update of `_process` lifted to possibly non-finite bin values. -/
def meanUpd (n : ℕ) : Option ℚ → Option ℚ → Option ℚ := onan2 (meanUpdQ n)

/-- Cross-series fold of `xsvs` (lines 187-190):
`acc + (sample - acc) / (i + 1)`, with `i` the series key taken from
`image_sets`. -/
def crossUpdQ (i : ℕ) (acc sv : ℚ) : ℚ := acc + (sv - acc) / ((i : ℚ) + 1)

/-- Radicand of the standard-error formula of `xsvs` (lines 191-192): the
code computes `np.power(speckle_cts_all - np.power(speckle_cts_all, 2), .5)`,
that is the real square root of `m - m ^ 2` applied to each running-mean bin
value `m`, with no clamping of the argument.  The (irrational) square root is
kept symbolic; this definition is the exact argument handed to it. -/
def stdRadQ (m : ℚ) : ℚ := m - m ^ 2

/-- Python index semantics for a container of length `len`: a negative index
`x` (with `-len ≤ x < 0`) addresses slot `x + len`. -/
def pyIdx (x : ℤ) (len : ℕ) : ℕ := if x < 0 then (x + len).toNat else x.toNat

/-- Bin edges of `xsvs` (line 132): `bin_edges[i, j] = np.arange(max_cts*2**i)`
(the same value is assigned for every ROI `j`; the base is the literal 2,
`timebin_num` is not consulted). -/
def binEdges (max_cts i : ℕ) : List ℕ := List.range (max_cts * 2 ^ i)

/-- The bin edges as rationals, as consumed by `np.histogram`. -/
def binEdgesQ (max_cts i : ℕ) : List ℚ :=
  (binEdges max_cts i).map (fun k : ℕ => (k : ℚ))

/-- Per-bin counts of `np.histogram(data, bins=edges)`: bin `b` is the
half-open interval `[edges[b], edges[b+1])`, except the last bin which is
closed. -/
def histCounts (edges : List ℚ) (data : List ℚ) : List ℕ :=
  (List.range (edges.length - 1)).map fun b =>
    if b + 2 = edges.length then
      data.countP fun x => decide (edges.getD b 0 ≤ x) && decide (x ≤ edges.getD (b + 1) 0)
    else
      data.countP fun x => decide (edges.getD b 0 ≤ x) && decide (x < edges.getD (b + 1) 0)

/-- Normalized histogram of `np.histogram(..., normed=True)` (line 241):
each bin count is divided by the bin width times the total count of in-range
values.  With an empty selection the total is zero and every bin is `0/0`,
a NaN; numpy emits a warning but does not raise. -/
def histNormed (edges : List ℚ) (data : List ℚ) : List (Option ℚ) :=
  let c := histCounts edges data
  let total : ℚ := (c.map fun n : ℕ => (n : ℚ)).sum
  (List.range (edges.length - 1)).map fun b =>
    qdivNaN (c.getD b 0) ((edges.getD (b + 1) 0 - edges.getD b 0) * total)

/-- ROI selection of `_process` (line 239): `buf[level, buf_no][labels == j+1]`.
The buffer row is in `labels` order, so the mask keeps the values whose label
equals `j + 1`. -/
def roiData (labels : List ℕ) (v : Frame) (j : ℕ) : List ℚ :=
  ((labels.zip v).filter fun p => p.1 == j + 1).map Prod.snd

/-- Per-series mutable state of `xsvs` (lines 137-152): trigger flags,
ring-buffer cursors, per-level frame counters, the ring buffers, and the
per-(level, ROI) running statistics. -/
structure XState where
  track : ℕ → Bool
  cur : ℕ → ℤ
  img : ℕ → ℕ
  buf : ℕ → ℕ → Frame
  cts : ℕ → ℕ → List (Option ℚ)
  pow : ℕ → ℕ → List (Option ℚ)

/-- The helper `_process` (lines 197-250): increment `img_per_level[level]`,
then for every ROI `j < num_roi` histogram the ROI-restricted buffer row and
fold it (and its elementwise square) into the running statistics with the
incremental-mean update. -/
def procOne (R : ℕ) (labels : List ℕ) (edges : List ℚ) (level bufNo : ℕ)
    (s : XState) : XState :=
  let n := s.img level + 1
  let v := s.buf level bufNo
  { s with
    img := fun k => if k = level then n else s.img k,
    cts := fun l j =>
      if l = level ∧ j < R then
        List.zipWith (meanUpd n) (s.cts l j) (histNormed edges (roiData labels v j))
      else s.cts l j,
    pow := fun l j =>
      if l = level ∧ j < R then
        List.zipWith (meanUpd n) (s.pow l j)
          ((histNormed edges (roiData labels v j)).map (Option.map fun x => x ^ 2))
      else s.pow l j }

/-- The promotion work at one armed level (the else branch of lines
171-181): compute the previous slot, advance this level's cursor, store the
sum of the two most recent level-below buffer rows, reset the trigger flag,
and run `_process` for this level. -/
def promoteStep (t R : ℕ) (labels : List ℕ) (mc : ℕ) (level : ℕ)
    (s : XState) : XState :=
  let prev : ℤ := 1 + (s.cur (level - 1) - 2) % (t : ℤ)
  let curl : ℤ := 1 + s.cur level % (t : ℤ)
  let sum : Frame :=
    List.zipWith (fun a b => a + b)
      (s.buf (level - 1) (pyIdx (prev - 1) t))
      (s.buf (level - 1) (pyIdx (s.cur (level - 1) - 1) t))
  let s1 : XState :=
    { s with
      cur := fun k => if k = level then curl else s.cur k,
      buf := fun l k => if l = level ∧ k = pyIdx (curl - 1) t then sum else s.buf l k,
      track := fun k => if k = level then false else s.track k }
  procOne R labels (binEdgesQ mc level) level (pyIdx (curl - 1) t) s1

/-- The promotion cascade of `xsvs` (the `while processing` loop, lines
167-184), with `fuel = num_times - level` remaining levels.  If the level is
not armed it is armed and the cascade stops; otherwise the level promotes
(`promoteStep`) and the next level is tested.  The second component records
which levels promoted during this raw frame (instrumentation for stating
the alternation property, not python state). -/
def cascadeAux (t R : ℕ) (labels : List ℕ) (mc : ℕ) :
    ℕ → ℕ → XState → XState × List ℕ
  | 0, _, s => (s, [])
  | fuel + 1, level, s =>
    if s.track level = false then
      ({ s with track := fun k => if k = level then true else s.track k }, [])
    else
      let r := cascadeAux t R labels mc fuel (level + 1)
        (promoteStep t R labels mc level s)
      (r.1, level :: r.2)

/-- Lines 154-160 of `xsvs`: advance the level-0 cursor cyclically, store
the new frame's ROI-restricted pixel values at that slot, and run
`_process` for level 0. -/
def frameStore (t R mc : ℕ) (labels : List ℕ) (s : XState) (v : Frame) : XState :=
  let cur0 : ℤ := (1 + s.cur 0) % (t : ℤ)
  let s0 : XState :=
    { s with
      cur := fun k => if k = 0 then cur0 else s.cur k,
      buf := fun l k => if l = 0 ∧ k = pyIdx (cur0 - 1) t then v else s.buf l k }
  procOne R labels (binEdgesQ mc 0) 0 (pyIdx (cur0 - 1) t) s0

/-- Per-raw-frame work of `xsvs` on the per-series state (lines 154-184):
store the frame at level 0, then run the cascade from level 1 (the loop is
entered only when `num_times > 1`, hence fuel `num_times - 1`). -/
def frameCascade (t L R mc : ℕ) (labels : List ℕ) (s : XState) (v : Frame) :
    XState × List ℕ :=
  cascadeAux t R labels mc (L - 1) 1 (frameStore t R mc labels s v)

/-- Shape of the cross-series accumulator arrays: level and ROI index to the
vector of bin values. -/
abbrev CrossArr := ℕ → ℕ → List (Option ℚ)

/-- Cross-series accumulator state of `xsvs`: `speckle_cts_all`,
`speckle_cts_pow_all`, and `speckle_cts_std_dev` (which is unassigned, i.e.
an unbound python name, until the first execution of lines 187-192).
`stdRad` stores the argument of the square root of line 191-192 per bin;
`folds` counts the executions of the fold (instrumentation). -/
structure Cross where
  ctsAll : CrossArr
  powAll : CrossArr
  stdRad : Option CrossArr
  folds : ℕ

/-- Lines 187-192 of `xsvs`: fold the per-series statistics into the overall
running result with divisor `i + 1`, then recompute the standard-error array
from the updated `speckle_cts_all`. -/
def crossStep (i : ℕ) (st : XState) (c : Cross) : Cross :=
  let newCts : CrossArr := fun l j =>
    List.zipWith (fun a sv => onan2 (crossUpdQ i) a sv) (c.ctsAll l j) (st.cts l j)
  { ctsAll := newCts,
    powAll := fun l j =>
      List.zipWith (fun a sv => onan2 (crossUpdQ i) a sv) (c.powAll l j) (st.pow l j),
    stdRad := some fun l j => (newCts l j).map (Option.map stdRadQ),
    folds := c.folds + 1 }

/-- One iteration of the `for n, img in images` loop of `xsvs`: the cascade
work for the frame followed, still inside the frame loop, by the
cross-series fold of lines 187-192. -/
def frameStep (t L R mc : ℕ) (labels : List ℕ) (i : ℕ)
    (p : XState × Cross) (v : Frame) : XState × Cross :=
  let r := frameCascade t L R mc labels p.1 v
  (r.1, crossStep i r.1 p.2)

/-- Fresh per-series state (lines 137-152): flags zero, cursors at
`timebin_num`, counters zero, buffers and statistics zero-valued (the numpy
object arrays hold the scalar 0, which broadcasts to a zero vector of the
appropriate length on first use; the model materializes those lengths). -/
def initX (t : ℕ) (labels : List ℕ) (mc : ℕ) : XState :=
  { track := fun _ => false,
    cur := fun _ => (t : ℤ),
    img := fun _ => 0,
    buf := fun _ _ => List.replicate labels.length 0,
    cts := fun l _ => List.replicate (mc * 2 ^ l - 1) (some 0),
    pow := fun l _ => List.replicate (mc * 2 ^ l - 1) (some 0) }

/-- Initial cross-series accumulator (lines 125-127): zero arrays;
`speckle_cts_std_dev` is not yet bound to anything. -/
def initCross (mc : ℕ) : Cross :=
  { ctsAll := fun l _ => List.replicate (mc * 2 ^ l - 1) (some 0),
    powAll := fun l _ => List.replicate (mc * 2 ^ l - 1) (some 0),
    stdRad := none,
    folds := 0 }

/-- One series of `xsvs` (`for i, images in image_sets`): fresh per-series
state, then the frame loop threading the cross-series accumulator. -/
def runSeries (t L R mc : ℕ) (labels : List ℕ) (i : ℕ) (frames : List Frame)
    (c : Cross) : XState × Cross :=
  frames.foldl (frameStep t L R mc labels i) (initX t labels mc, c)

/-- The levels promoted while the cascade processes raw frame `n`
(1-indexed) of a series: the cascade output for frame `n` started from the
state after the first `n - 1` frames. -/
def promotedAtFrame (t L R mc : ℕ) (labels : List ℕ) (i : ℕ) (c : Cross)
    (frames : List Frame) (n : ℕ) : List ℕ :=
  (frameCascade t L R mc labels
      (runSeries t L R mc labels i (frames.take (n - 1)) c).1
      (frames.getD (n - 1) [])).2

/-- The outer series loop step of `xsvs`: run one `(i, images)` element of
`image_sets` and keep the cross-series accumulator. -/
def seriesStep (t L R mc : ℕ) (labels : List ℕ) :
    Cross → ℕ × List Frame → Cross :=
  fun c p => (runSeries t L R mc labels p.1 p.2 c).2

/-- Cross-series accumulator after the whole `for i, images in image_sets`
loop of `xsvs`. -/
def xsvsCross (t L R mc : ℕ) (labels : List ℕ)
    (sets : List (ℕ × List Frame)) : Cross :=
  sets.foldl (seriesStep t L R mc labels) (initCross mc)

/-- The function `xsvs` as a whole: run all series, then
`return speckle_cts_all, speckle_cts_std_dev`.  If no frame was ever
processed, `speckle_cts_std_dev` was never assigned and the return statement
raises a `NameError`; that is the only exception the body can raise on
well-formed inputs. -/
def xsvsRun (t L R mc : ℕ) (labels : List ℕ) (sets : List (ℕ × List Frame)) :
    Except String (CrossArr × CrossArr) :=
  let c := xsvsCross t L R mc labels sets
  match c.stdRad with
  | none => Except.error "NameError: name speckle_cts_std_dev is not defined"
  | some sd => Except.ok (c.ctsAll, sd)

/-- Whether a call returned normally (no exception propagated). -/
def returnsNormally (e : Except String (CrossArr × CrossArr)) : Bool :=
  match e with
  | Except.ok _ => true
  | Except.error _ => false

/-- The level-0 cursor sequence: initial value `timebin_num` (line 144),
update `cur[0] = (1 + cur[0]) % timebin_num` (line 154) once per raw frame. -/
def cur0Seq (t : ℕ) : ℕ → ℤ
  | 0 => (t : ℤ)
  | n + 1 => (1 + cur0Seq t n) % (t : ℤ)

/-- Running mean produced by iterating the `_process` update on a stream of
samples: after `n` samples the state is the fold of
`mean + (sample - mean) / k` with `k` the post-increment count. -/
def runningMean (h : ℕ → ℚ) : ℕ → ℚ
  | 0 => 0
  | n + 1 => meanUpdQ (n + 1) (runningMean h n) (h n)

/-- Modelled from the spec: `bin_edges_to_centers` from `skxray.core.utils`
(imported by the module but not under src/) maps each pair of adjacent edges
to its midpoint. -/
def bin_edges_to_centers (edges : List (Option ℚ)) : List (Option ℚ) :=
  (edges.zip edges.tail).map fun p => onan2 (fun a b => (a + b) / 2) p.1 p.2

/-- One cell of `normalize_bin_edges` (line 284):
`np.arange(max_cts*2**i) / (mean_roi[j]*2**i)`.  A zero mean intensity makes
every entry non-finite (`0/0` is NaN, `k/0` is an infinity); numpy emits a
warning but raises nothing. -/
def normEdgeEntry (max_cts : ℕ) (mean_roi : List ℚ) (i j : ℕ) : List (Option ℚ) :=
  (List.range (max_cts * 2 ^ i)).map fun k : ℕ =>
    qdivNaN (k : ℚ) (mean_roi.getD j 0 * 2 ^ i)

/-- The function `normalize_bin_edges` (lines 253-287): per (time, ROI)
normalized edges and their centers.  It has no error path: a zero mean
intensity flows through as non-finite values. -/
def normalize_bin_edges (num_times num_rois max_cts : ℕ) (mean_roi : List ℚ) :
    (ℕ → ℕ → List (Option ℚ)) × (ℕ → ℕ → List (Option ℚ)) :=
  (fun i j =>
      if i < num_times ∧ j < num_rois then normEdgeEntry max_cts mean_roi i j
      else [],
   fun i j =>
      if i < num_times ∧ j < num_rois then
        bin_edges_to_centers (normEdgeEntry max_cts mean_roi i j)
      else [])

/-- Cascade counting invariant after `n` raw frames of one series:
`img_per_level[l] = n / 2^l` for every level, the trigger flag of level
`l ≥ 1` records the parity of the event count of level `l - 1`, and the
level-0 cursor follows its cyclic recurrence. -/
def CascInv (t L n : ℕ) (s : XState) : Prop :=
  (∀ l, l < L → s.img l = n / 2 ^ l) ∧
  (∀ l, 1 ≤ l → l < L → s.track l = decide (n / 2 ^ (l - 1) % 2 = 1)) ∧
  s.cur 0 = cur0Seq t n

/-- Concrete sample stream for witnesses. -/
def wSeq : ℕ → ℚ := fun i => (i : ℚ) / 2

/-- Concrete three-frame single-pixel series for witnesses. -/
def wFrames3 : List Frame := [[1], [1], [1]]

/-- Concrete four-frame single-pixel series for witnesses. -/
def wFrames4 : List Frame := [[1], [1], [1], [1]]

/-- Concrete five-frame single-pixel series for witnesses. -/
def wFrames5 : List Frame := [[1], [1], [1], [1], [1]]

/-- Concrete cross-series update stream (value, series key) for witnesses. -/
def wUpds : List (ℚ × ℕ) := [(1 / 2, 0), (3 / 4, 1)]

/-! Projection facts for the state transformers. -/

lemma procOne_track (R : ℕ) (labels : List ℕ) (edges : List ℚ) (level bufNo : ℕ)
    (s : XState) : (procOne R labels edges level bufNo s).track = s.track := rfl

lemma procOne_cur (R : ℕ) (labels : List ℕ) (edges : List ℚ) (level bufNo : ℕ)
    (s : XState) : (procOne R labels edges level bufNo s).cur = s.cur := rfl

lemma procOne_img (R : ℕ) (labels : List ℕ) (edges : List ℚ) (level bufNo : ℕ)
    (s : XState) :
    (procOne R labels edges level bufNo s).img =
      fun k => if k = level then s.img level + 1 else s.img k := rfl

lemma promoteStep_track (t R : ℕ) (labels : List ℕ) (mc level : ℕ) (s : XState) :
    (promoteStep t R labels mc level s).track =
      fun k => if k = level then false else s.track k := rfl

lemma promoteStep_img (t R : ℕ) (labels : List ℕ) (mc level : ℕ) (s : XState) :
    (promoteStep t R labels mc level s).img =
      fun k => if k = level then s.img level + 1 else s.img k := rfl

lemma promoteStep_cur (t R : ℕ) (labels : List ℕ) (mc level : ℕ) (s : XState) :
    (promoteStep t R labels mc level s).cur =
      fun k => if k = level then 1 + s.cur level % (t : ℤ) else s.cur k := rfl

lemma frameStore_track (t R mc : ℕ) (labels : List ℕ) (s : XState) (v : Frame) :
    (frameStore t R mc labels s v).track = s.track := rfl

lemma frameStore_img (t R mc : ℕ) (labels : List ℕ) (s : XState) (v : Frame) :
    (frameStore t R mc labels s v).img =
      fun k => if k = 0 then s.img 0 + 1 else s.img k := rfl

lemma frameStore_cur (t R mc : ℕ) (labels : List ℕ) (s : XState) (v : Frame) :
    (frameStore t R mc labels s v).cur =
      fun k => if k = 0 then (1 + s.cur 0) % (t : ℤ) else s.cur k := rfl

/-! Arithmetic helpers for the cascade counting argument. -/

lemma div_pred_of_not_dvd {m N : ℕ} (hN : 0 < N) (h : ¬ m ∣ N) :
    (N - 1) / m = N / m := by
  obtain ⟨n, rfl⟩ : ∃ n, N = n + 1 := ⟨N - 1, by omega⟩
  simp [Nat.succ_div, h]

lemma div_pred_of_dvd {m N : ℕ} (hN : 0 < N) (h : m ∣ N) :
    (N - 1) / m = N / m - 1 := by
  obtain ⟨n, rfl⟩ : ∃ n, N = n + 1 := ⟨N - 1, by omega⟩
  have h2 : (n + 1) / m = n / m + 1 := by simp [Nat.succ_div, h]
  simp [h2]

lemma div_pos_of_dvd {m N : ℕ} (hN : 0 < N) (h : m ∣ N) : 0 < N / m := by
  have hm : 0 < m := by
    rcases Nat.eq_zero_or_pos m with h0 | h0
    · subst h0; rw [zero_dvd_iff] at h; omega
    · exact h0
  exact Nat.div_pos (Nat.le_of_dvd hN h) hm

lemma pow_mul_two {l : ℕ} (hl : 1 ≤ l) : 2 ^ (l - 1) * 2 = 2 ^ l := by
  conv_rhs => rw [show l = (l - 1) + 1 by omega]
  rw [pow_succ]

lemma not_pow_dvd_of_odd {l N q : ℕ} (hl : 1 ≤ l) (hq : N = 2 ^ (l - 1) * q)
    (hodd : q % 2 = 1) : ∀ j, l ≤ j → ¬ 2 ^ j ∣ N := by
  intro j hj hdj
  have h2l : (2 : ℕ) ^ l ∣ N := dvd_trans (pow_dvd_pow 2 hj) hdj
  rw [hq, ← pow_mul_two hl] at h2l
  have h2 : (2 : ℕ) ∣ q :=
    (mul_dvd_mul_iff_left (pow_ne_zero (l - 1) (two_ne_zero))).1 h2l
  omega

/-! Unfolding equations for the two cascade branches. -/

lemma cascadeAux_arm_eq (t R : ℕ) (labels : List ℕ) (mc fuel level : ℕ)
    (s : XState) (h : s.track level = false) :
    cascadeAux t R labels mc (fuel + 1) level s =
      ({ s with track := fun k => if k = level then true else s.track k }, []) := by
  simp only [cascadeAux]
  rw [if_pos h]

lemma cascadeAux_promote_eq (t R : ℕ) (labels : List ℕ) (mc fuel level : ℕ)
    (s : XState) (h : s.track level = true) :
    cascadeAux t R labels mc (fuel + 1) level s =
      ((cascadeAux t R labels mc fuel (level + 1) (promoteStep t R labels mc level s)).1,
       level ::
         (cascadeAux t R labels mc fuel (level + 1) (promoteStep t R labels mc level s)).2) := by
  simp only [cascadeAux]
  rw [if_neg (by simp [h])]

/-! The cascade leaves all levels below its entry level untouched. -/

lemma cascadeAux_below (t R : ℕ) (labels : List ℕ) (mc : ℕ) :
    ∀ (fuel l k : ℕ) (s : XState), k < l →
      (cascadeAux t R labels mc fuel l s).1.track k = s.track k ∧
      (cascadeAux t R labels mc fuel l s).1.img k = s.img k ∧
      (cascadeAux t R labels mc fuel l s).1.cur k = s.cur k := by
  intro fuel
  induction fuel with
  | zero => intro l k s hk; exact ⟨rfl, rfl, rfl⟩
  | succ fuel ih =>
    intro l k s hk
    by_cases htr : s.track l = false
    · rw [cascadeAux_arm_eq t R labels mc fuel l s htr]
      refine ⟨?_, rfl, rfl⟩
      simp [Nat.ne_of_lt hk]
    · rw [Bool.not_eq_false] at htr
      rw [cascadeAux_promote_eq t R labels mc fuel l s htr]
      obtain ⟨h1, h2, h3⟩ := ih (l + 1) k (promoteStep t R labels mc l s) (by omega)
      refine ⟨?_, ?_, ?_⟩
      · rw [show (((cascadeAux t R labels mc fuel (l + 1) (promoteStep t R labels mc l s)).1,
            l :: (cascadeAux t R labels mc fuel (l + 1) (promoteStep t R labels mc l s)).2).1 :
            XState) = (cascadeAux t R labels mc fuel (l + 1)
              (promoteStep t R labels mc l s)).1 from rfl, h1, promoteStep_track]
        simp [Nat.ne_of_lt hk]
      · rw [show (((cascadeAux t R labels mc fuel (l + 1) (promoteStep t R labels mc l s)).1,
            l :: (cascadeAux t R labels mc fuel (l + 1) (promoteStep t R labels mc l s)).2).1 :
            XState) = (cascadeAux t R labels mc fuel (l + 1)
              (promoteStep t R labels mc l s)).1 from rfl, h2, promoteStep_img]
        simp [Nat.ne_of_lt hk]
      · rw [show (((cascadeAux t R labels mc fuel (l + 1) (promoteStep t R labels mc l s)).1,
            l :: (cascadeAux t R labels mc fuel (l + 1) (promoteStep t R labels mc l s)).2).1 :
            XState) = (cascadeAux t R labels mc fuel (l + 1)
              (promoteStep t R labels mc l s)).1 from rfl, h3, promoteStep_cur]
        simp [Nat.ne_of_lt hk]

/-! Main counting specification of the cascade: entering at level `l` while
processing raw frame `N` (with all levels `1..l-1` already promoted for this
frame, witnessed by `2^(l-1) ∣ N`), the flags and counters at levels
`l..l+fuel-1` move from their frame-`N-1` values to their frame-`N` values,
and exactly the levels whose period divides `N` promote. -/

lemma cascadeAux_spec (t R : ℕ) (labels : List ℕ) (mc : ℕ) (N : ℕ) :
    ∀ (fuel : ℕ) (l : ℕ) (s : XState),
      1 ≤ l → 0 < N → 2 ^ (l - 1) ∣ N →
      (∀ k, l ≤ k → k < l + fuel →
        s.track k = decide ((N - 1) / 2 ^ (k - 1) % 2 = 1)) →
      (∀ k, l ≤ k → k < l + fuel → s.img k = (N - 1) / 2 ^ k) →
      (∀ k, l ≤ k → k < l + fuel →
        (cascadeAux t R labels mc fuel l s).1.track k =
          decide (N / 2 ^ (k - 1) % 2 = 1) ∧
        (cascadeAux t R labels mc fuel l s).1.img k = N / 2 ^ k) ∧
      (∀ k, k ∈ (cascadeAux t R labels mc fuel l s).2 ↔
        l ≤ k ∧ k < l + fuel ∧ 2 ^ k ∣ N) := by
  intro fuel
  induction fuel with
  | zero =>
    intro l s hl hN hdvd htrack himg
    constructor
    · intro k hk1 hk2; omega
    · intro k
      constructor
      · intro h; simp [cascadeAux] at h
      · rintro ⟨h1, h2, h3⟩; omega
  | succ fuel ih =>
    intro l s hl hN hdvd htrack himg
    obtain ⟨q, hq⟩ := hdvd
    have hppos : 0 < (2 : ℕ) ^ (l - 1) := by positivity
    have hdvd' : (2 : ℕ) ^ (l - 1) ∣ N := ⟨q, hq⟩
    have hNq : N / 2 ^ (l - 1) = q := by
      rw [hq]; exact Nat.mul_div_cancel_left q hppos
    have hq1 : 1 ≤ q := by
      have := div_pos_of_dvd hN hdvd'
      omega
    have hpredl : (N - 1) / 2 ^ (l - 1) = q - 1 := by
      rw [div_pred_of_dvd hN hdvd', hNq]
    have htl : s.track l = decide ((N - 1) / 2 ^ (l - 1) % 2 = 1) :=
      htrack l (le_refl l) (by omega)
    by_cases hodd : q % 2 = 1
    · -- the level is unarmed: arm it and stop
      have htlf : s.track l = false := by
        rw [htl, hpredl]
        simp only [decide_eq_false_iff_not]
        omega
      rw [cascadeAux_arm_eq t R labels mc fuel l s htlf]
      have hnd : ∀ j, l ≤ j → ¬ 2 ^ j ∣ N := not_pow_dvd_of_odd hl hq hodd
      constructor
      · intro k hk1 hk2
        constructor
        · show (if k = l then true else s.track k) = decide (N / 2 ^ (k - 1) % 2 = 1)
          by_cases hkl : k = l
          · subst hkl
            rw [if_pos rfl, hNq]
            simp [hodd]
          · rw [if_neg hkl]
            rw [htrack k hk1 (by omega),
              div_pred_of_not_dvd hN (hnd (k - 1) (by omega))]
        · show s.img k = N / 2 ^ k
          rw [himg k hk1 (by omega), div_pred_of_not_dvd hN (hnd k hk1)]
      · intro k
        constructor
        · intro h; simp at h
        · rintro ⟨hk1, hk2, hk3⟩
          exact absurd hk3 (hnd k hk1)
    · -- the level is armed: promote and continue cascading
      have heven : q % 2 = 0 := by omega
      have htlt : s.track l = true := by
        rw [htl, hpredl]
        simp only [decide_eq_true_eq]
        omega
      rw [cascadeAux_promote_eq t R labels mc fuel l s htlt]
      have h2l : (2 : ℕ) ^ l ∣ N := by
        have hd2 : (2 : ℕ) ∣ q := Nat.dvd_of_mod_eq_zero heven
        have hm := mul_dvd_mul_left ((2 : ℕ) ^ (l - 1)) hd2
        rwa [pow_mul_two hl, ← hq] at hm
      obtain ⟨ihA, ihB⟩ := ih (l + 1) (promoteStep t R labels mc l s)
        (by omega) hN (by simpa using h2l)
        (by
          intro k hk1 hk2
          rw [promoteStep_track]
          simp only [if_neg (by omega : ¬ k = l)]
          exact htrack k (by omega) (by omega))
        (by
          intro k hk1 hk2
          rw [promoteStep_img]
          simp only [if_neg (by omega : ¬ k = l)]
          exact himg k (by omega) (by omega))
      constructor
      · intro k hk1 hk2
        by_cases hkl : k = l
        · subst hkl
          obtain ⟨hb1, hb2, hb3⟩ :=
            cascadeAux_below t R labels mc fuel (k + 1) k
              (promoteStep t R labels mc k s) (by omega)
          constructor
          · show (cascadeAux t R labels mc fuel (k + 1)
                (promoteStep t R labels mc k s)).1.track k =
              decide (N / 2 ^ (k - 1) % 2 = 1)
            rw [hb1, promoteStep_track]
            simp only [if_pos rfl, hNq]
            simp [heven]
          · show (cascadeAux t R labels mc fuel (k + 1)
                (promoteStep t R labels mc k s)).1.img k = N / 2 ^ k
            have himgk : (promoteStep t R labels mc k s).img k = s.img k + 1 := by
              rw [promoteStep_img]; simp
            rw [hb2, himgk, himg k (le_refl k) (by omega), div_pred_of_dvd hN h2l]
            have := div_pos_of_dvd hN h2l
            omega
        · exact ihA k (by omega) (by omega)
      · intro k
        show k ∈ l :: (cascadeAux t R labels mc fuel (l + 1)
            (promoteStep t R labels mc l s)).2 ↔ _
        rw [List.mem_cons, ihB k]
        constructor
        · rintro (rfl | ⟨ha, hb, hc⟩)
          · exact ⟨le_refl k, by omega, h2l⟩
          · exact ⟨by omega, by omega, hc⟩
        · rintro ⟨ha, hb, hc⟩
          by_cases hkl : k = l
          · exact Or.inl hkl
          · exact Or.inr ⟨by omega, by omega, hc⟩

/-! One raw frame advances the counting invariant by one. -/

lemma frameCascade_spec (t L R mc : ℕ) (labels : List ℕ) (s : XState) (v : Frame)
    (n : ℕ) (h : CascInv t L n s) :
    CascInv t L (n + 1) (frameCascade t L R mc labels s v).1 ∧
    (∀ k, k ∈ (frameCascade t L R mc labels s v).2 ↔
      1 ≤ k ∧ k < L ∧ 2 ^ k ∣ (n + 1)) := by
  obtain ⟨himg, htr, hcur⟩ := h
  have spec := cascadeAux_spec t R labels mc (n + 1) (L - 1) 1
    (frameStore t R mc labels s v) (le_refl 1) (by omega) (by simp)
    (by
      intro k hk1 hk2
      rw [frameStore_track]
      simp only [Nat.add_sub_cancel]
      exact htr k hk1 (by omega))
    (by
      intro k hk1 hk2
      have hik : (frameStore t R mc labels s v).img k = s.img k := by
        rw [frameStore_img]; simp [Nat.ne_of_gt hk1]
      rw [hik]
      simp only [Nat.add_sub_cancel]
      exact himg k (by omega))
  obtain ⟨hb1, hb2, hb3⟩ :=
    cascadeAux_below t R labels mc (L - 1) 1 0 (frameStore t R mc labels s v)
      (by omega)
  refine ⟨⟨?_, ?_, ?_⟩, ?_⟩
  · intro l hl
    by_cases hl0 : l = 0
    · subst hl0
      show (frameCascade t L R mc labels s v).1.img 0 = (n + 1) / 2 ^ 0
      have hik : (frameStore t R mc labels s v).img 0 = s.img 0 + 1 := by
        rw [frameStore_img]; simp
      rw [show (frameCascade t L R mc labels s v).1.img 0 =
          (frameStore t R mc labels s v).img 0 from hb2, hik, himg 0 hl]
      simp
    · exact (spec.1 l (by omega) (by omega)).2
  · intro l hl1 hlL
    exact (spec.1 l hl1 (by omega)).1
  · show (frameCascade t L R mc labels s v).1.cur 0 = cur0Seq t (n + 1)
    have hck : (frameStore t R mc labels s v).cur 0 = (1 + s.cur 0) % (t : ℤ) := by
      rw [frameStore_cur]; simp
    rw [show (frameCascade t L R mc labels s v).1.cur 0 =
        (frameStore t R mc labels s v).cur 0 from hb3, hck, hcur]
    rfl
  · intro k
    rw [show (frameCascade t L R mc labels s v).2 =
        (cascadeAux t R labels mc (L - 1) 1 (frameStore t R mc labels s v)).2 from rfl,
      spec.2 k]
    constructor
    · rintro ⟨h1, h2, h3⟩; exact ⟨h1, by omega, h3⟩
    · rintro ⟨h1, h2, h3⟩; exact ⟨h1, by omega, h3⟩

/-! The invariant threaded through the frame loop and the fresh state. -/

lemma foldl_frameStep_inv (t L R mc : ℕ) (labels : List ℕ) (i : ℕ) :
    ∀ (frames : List Frame) (p : XState × Cross) (n : ℕ),
      CascInv t L n p.1 →
      CascInv t L (n + frames.length)
        ((frames.foldl (frameStep t L R mc labels i) p).1) := by
  intro frames
  induction frames with
  | nil => intro p n h; simpa using h
  | cons v fs ih =>
    intro p n h
    have h1 : CascInv t L (n + 1) ((frameStep t L R mc labels i p v).1) :=
      (frameCascade_spec t L R mc labels p.1 v n h).1
    have h2 := ih (frameStep t L R mc labels i p v) (n + 1) h1
    have harith : n + (v :: fs).length = n + 1 + fs.length := by
      simp [List.length_cons]; omega
    rw [harith]
    simpa [List.foldl_cons] using h2

lemma initX_inv (t L : ℕ) (labels : List ℕ) (mc : ℕ) :
    CascInv t L 0 (initX t labels mc) := by
  refine ⟨?_, ?_, rfl⟩
  · intro l hl; simp [initX]
  · intro l h1 h2; simp [initX]

lemma runSeries_inv (t L R mc : ℕ) (labels : List ℕ) (i : ℕ) (frames : List Frame)
    (c : Cross) :
    CascInv t L frames.length (runSeries t L R mc labels i frames c).1 := by
  have := foldl_frameStep_inv t L R mc labels i frames (initX t labels mc, c) 0
    (initX_inv t L labels mc)
  simpa [runSeries] using this

/-- C2: for a series of `N` raw frames processed with `timebin_num = 2` and
`L` levels, after the series `img_per_level[l] = N / 2^l` for every
`l < L`; in particular level 0 receives exactly `N` synthesized frames. -/
theorem xsvs_img_per_level_eq (L R mc : ℕ) (labels : List ℕ) (i : ℕ)
    (frames : List Frame) (c : Cross) (l : ℕ) (hl : l < L) :
    (runSeries 2 L R mc labels i frames c).1.img l = frames.length / 2 ^ l :=
  (runSeries_inv 2 L R mc labels i frames c).1 l hl

/-- Witness for C2: a five-frame series with three levels puts
`5 / 2 = 2` synthesized frames at level 1. -/
theorem xsvs_img_per_level_eq_witness :
    (runSeries 2 3 1 2 [1] 0 wFrames5 (initCross 2)).1.img 1 = wFrames5.length / 2 ^ 1 :=
  xsvs_img_per_level_eq 3 1 2 [1] 0 wFrames5 (initCross 2) 1 (by decide)

/-! Splitting one power of two off a divisibility. -/

lemma two_pow_dvd_split {l n : ℕ} (hl : 1 ≤ l) :
    2 ^ l ∣ n ↔ 2 ^ (l - 1) ∣ n ∧ n / 2 ^ (l - 1) % 2 = 0 := by
  constructor
  · rintro ⟨m, hm⟩
    have hm2 : n = 2 ^ (l - 1) * (2 * m) := by rw [hm, ← pow_mul_two hl]; ring
    have h2 : n / 2 ^ (l - 1) = 2 * m := by
      rw [hm2]; exact Nat.mul_div_cancel_left _ (by positivity)
    exact ⟨⟨2 * m, hm2⟩, by omega⟩
  · rintro ⟨⟨m, hm⟩, hb⟩
    have hmq : n / 2 ^ (l - 1) = m := by
      rw [hm]; exact Nat.mul_div_cancel_left _ (by positivity)
    rw [hmq] at hb
    obtain ⟨m2, hm2⟩ : 2 ∣ m := Nat.dvd_of_mod_eq_zero hb
    exact ⟨m2, by rw [hm, hm2, ← pow_mul_two hl]; ring⟩

/-! Characterization of the promoted levels at a given raw frame. -/

lemma promotedAtFrame_mem (t L R mc : ℕ) (labels : List ℕ) (i : ℕ) (c : Cross)
    (frames : List Frame) (n : ℕ) (hn1 : 1 ≤ n) (hn2 : n ≤ frames.length) (k : ℕ) :
    k ∈ promotedAtFrame t L R mc labels i c frames n ↔ 1 ≤ k ∧ k < L ∧ 2 ^ k ∣ n := by
  have hlen : (frames.take (n - 1)).length = n - 1 := by
    rw [List.length_take]; omega
  have hinv := runSeries_inv t L R mc labels i (frames.take (n - 1)) c
  rw [hlen] at hinv
  have hspec := (frameCascade_spec t L R mc labels
    (runSeries t L R mc labels i (frames.take (n - 1)) c).1
    (frames.getD (n - 1) []) (n - 1) hinv).2
  have hn : n - 1 + 1 = n := by omega
  rw [hn] at hspec
  exact hspec k

/-- C3: for every level `l ≥ 1`, within one series the arm/promote state
strictly alternates: level `l` promotes exactly on every second event
delivered by level `l - 1` (the raw frames `n` whose level-`l-1` event
number `n / 2^(l-1)` is even), never on the odd-numbered events, and after a
promotion the trigger flag of the level is unarmed. -/
theorem xsvs_promotion_alternation (t L R mc : ℕ) (labels : List ℕ) (i : ℕ)
    (c : Cross) (frames : List Frame) (n l : ℕ)
    (hn1 : 1 ≤ n) (hn2 : n ≤ frames.length) (hl1 : 1 ≤ l) (hlL : l < L) :
    (l ∈ promotedAtFrame t L R mc labels i c frames n ↔
      2 ^ (l - 1) ∣ n ∧ n / 2 ^ (l - 1) % 2 = 0) ∧
    ((l - 1 = 0 ∨ l - 1 ∈ promotedAtFrame t L R mc labels i c frames n) ↔
      2 ^ (l - 1) ∣ n) ∧
    (l ∈ promotedAtFrame t L R mc labels i c frames n →
      (runSeries t L R mc labels i (frames.take n) c).1.track l = false) := by
  have hchar := promotedAtFrame_mem t L R mc labels i c frames n hn1 hn2
  refine ⟨?_, ?_, ?_⟩
  · rw [hchar l, two_pow_dvd_split hl1]
    constructor
    · rintro ⟨h1, h2, h3⟩; exact h3
    · intro h; exact ⟨hl1, hlL, h⟩
  · by_cases hl2 : l = 1
    · subst hl2; simp
    · have hll : 1 ≤ l - 1 := by omega
      rw [hchar (l - 1)]
      constructor
      · rintro (h0 | ⟨h1, h2, h3⟩)
        · omega
        · exact h3
      · intro h; exact Or.inr ⟨hll, by omega, h⟩
  · intro hmem
    have hd := (hchar l).1 hmem
    have hinvn := runSeries_inv t L R mc labels i (frames.take n) c
    have hlen : (frames.take n).length = n := by rw [List.length_take]; omega
    rw [hlen] at hinvn
    have htr := hinvn.2.1 l hl1 hlL
    rw [htr]
    have hsp := (two_pow_dvd_split hl1).1 hd.2.2
    simp only [decide_eq_false_iff_not]
    omega

/-- Witness for C3 at level 2 of a four-frame series: frame 4 is the second
level-1 event, so level 2 promotes there and its flag ends unarmed. -/
theorem xsvs_promotion_alternation_witness :
    (2 ∈ promotedAtFrame 2 3 1 2 [1] 0 (initCross 2) wFrames4 4 ↔
      2 ^ (2 - 1) ∣ 4 ∧ 4 / 2 ^ (2 - 1) % 2 = 0) ∧
    ((2 - 1 = 0 ∨ 2 - 1 ∈ promotedAtFrame 2 3 1 2 [1] 0 (initCross 2) wFrames4 4) ↔
      2 ^ (2 - 1) ∣ 4) ∧
    (2 ∈ promotedAtFrame 2 3 1 2 [1] 0 (initCross 2) wFrames4 4 →
      (runSeries 2 3 1 2 [1] 0 (wFrames4.take 4) (initCross 2)).1.track 2 = false) :=
  xsvs_promotion_alternation 2 3 1 2 [1] 0 (initCross 2) wFrames4 4 2
    (by decide) (by decide) (by decide) (by decide)

/-! The level-0 cursor follows `n % timebin_num` after the first frame. -/

lemma cur0Seq_eq (t : ℕ) (ht : 1 ≤ t) :
    ∀ n, cur0Seq t (n + 1) = ((n + 1 : ℕ) : ℤ) % ((t : ℕ) : ℤ) := by
  intro n
  induction n with
  | zero =>
    show (1 + ((t : ℕ) : ℤ)) % ((t : ℕ) : ℤ) = ((1 : ℕ) : ℤ) % ((t : ℕ) : ℤ)
    have h := @Int.add_mul_emod_self_left 1 ((t : ℕ) : ℤ) 1
    rw [mul_one] at h
    simpa using h
  | succ n ih =>
    show (1 + cur0Seq t (n + 1)) % ((t : ℕ) : ℤ) = ((n + 1 + 1 : ℕ) : ℤ) % ((t : ℕ) : ℤ)
    rw [ih]
    have hdecomp :
        1 + ((n + 1 : ℕ) : ℤ) % ((t : ℕ) : ℤ) +
          ((t : ℕ) : ℤ) * (((n + 1 : ℕ) : ℤ) / ((t : ℕ) : ℤ)) = ((n + 1 + 1 : ℕ) : ℤ) := by
      have h2 := Int.ediv_add_emod ((n + 1 : ℕ) : ℤ) ((t : ℕ) : ℤ)
      push_cast
      push_cast at h2
      linarith
    calc (1 + ((n + 1 : ℕ) : ℤ) % ((t : ℕ) : ℤ)) % ((t : ℕ) : ℤ)
        = (1 + ((n + 1 : ℕ) : ℤ) % ((t : ℕ) : ℤ) +
            ((t : ℕ) : ℤ) * (((n + 1 : ℕ) : ℤ) / ((t : ℕ) : ℤ))) % ((t : ℕ) : ℤ) :=
          (@Int.add_mul_emod_self_left (1 + ((n + 1 : ℕ) : ℤ) % ((t : ℕ) : ℤ))
            ((t : ℕ) : ℤ) (((n + 1 : ℕ) : ℤ) / ((t : ℕ) : ℤ))).symm
      _ = ((n + 1 + 1 : ℕ) : ℤ) % ((t : ℕ) : ℤ) := by rw [hdecomp]

lemma runSeries_cur0 (t L R mc : ℕ) (labels : List ℕ) (i : ℕ) (frames : List Frame)
    (c : Cross) :
    (runSeries t L R mc labels i frames c).1.cur 0 = cur0Seq t frames.length :=
  (runSeries_inv t L R mc labels i frames c).2.2

/-! Python wraparound of the written slot: the slot of frame `n` is
`(n - 1) % timebin_num`. -/

lemma pyIdx_pred_mod (t n : ℕ) (ht : 1 ≤ t) (hn : 1 ≤ n) :
    pyIdx ((n : ℤ) % ((t : ℕ) : ℤ) - 1) t = (n - 1) % t := by
  have hcast : ((n % t : ℕ) : ℤ) = (n : ℤ) % ((t : ℕ) : ℤ) := Int.natCast_mod n t
  rw [← hcast]
  by_cases hr : n % t = 0
  · rw [hr]
    have h1 : pyIdx (((0 : ℕ) : ℤ) - 1) t = t - 1 := by
      unfold pyIdx
      rw [if_pos (by simp)]
      omega
    rw [h1]
    obtain ⟨k, hk⟩ : t ∣ n := Nat.dvd_of_mod_eq_zero hr
    have hk1 : 1 ≤ k := by
      rcases Nat.eq_zero_or_pos k with h0 | h0
      · subst h0; omega
      · exact h0
    have h2 : t * k = t * (k - 1) + t := by
      obtain ⟨k2, rfl⟩ : ∃ k2, k = k2 + 1 := ⟨k - 1, by omega⟩
      simp [Nat.mul_succ]
    have hsub : n - 1 = t * (k - 1) + (t - 1) := by omega
    rw [hsub, Nat.mul_add_mod, Nat.mod_eq_of_lt (show t - 1 < t by omega)]
  · have hr1 : 1 ≤ n % t := by omega
    have h1 : pyIdx (((n % t : ℕ) : ℤ) - 1) t = n % t - 1 := by
      unfold pyIdx
      rw [if_neg (by push_cast; omega)]
      push_cast
      omega
    rw [h1]
    have hdm := Nat.div_add_mod n t
    have hlt := Nat.mod_lt n (show 0 < t by omega)
    have hsub : n - 1 = t * (n / t) + (n % t - 1) := by omega
    rw [hsub, Nat.mul_add_mod, Nat.mod_eq_of_lt (show n % t - 1 < t by omega)]

/-- C10: the ring-buffer write index at level 0.  The update
`cur[0] = (1 + cur[0]) % timebin_num` keeps `cur[0] - 1` inside
`{-1, ..., timebin_num - 2}`, the python wraparound maps it onto the valid
slot `(n - 1) % timebin_num`, and over any `timebin_num` consecutive frames
each slot is written exactly once (so the overwritten entry is the oldest). -/
theorem xsvs_ringbuffer_slots (t L R mc : ℕ) (labels : List ℕ) (i : ℕ) (c : Cross)
    (frames : List Frame) (ht : 1 ≤ t) :
    (∀ n, 1 ≤ n → n ≤ frames.length →
      -1 ≤ (runSeries t L R mc labels i (frames.take n) c).1.cur 0 - 1 ∧
      (runSeries t L R mc labels i (frames.take n) c).1.cur 0 - 1 ≤ ((t : ℕ) : ℤ) - 2 ∧
      pyIdx ((runSeries t L R mc labels i (frames.take n) c).1.cur 0 - 1) t =
        (n - 1) % t ∧
      (n - 1) % t < t) ∧
    (∀ m a b, m + 1 ≤ a → a ≤ m + t → m + 1 ≤ b → b ≤ m + t →
      a ≤ frames.length → b ≤ frames.length →
      pyIdx ((runSeries t L R mc labels i (frames.take a) c).1.cur 0 - 1) t =
        pyIdx ((runSeries t L R mc labels i (frames.take b) c).1.cur 0 - 1) t →
      a = b) := by
  have hcur : ∀ n, 1 ≤ n → n ≤ frames.length →
      (runSeries t L R mc labels i (frames.take n) c).1.cur 0 =
        (n : ℤ) % ((t : ℕ) : ℤ) := by
    intro n h1 h2
    have h := runSeries_cur0 t L R mc labels i (frames.take n) c
    rw [List.length_take, min_eq_left h2] at h
    rw [h]
    obtain ⟨n2, rfl⟩ : ∃ n2, n = n2 + 1 := ⟨n - 1, by omega⟩
    exact cur0Seq_eq t ht n2
  constructor
  · intro n h1 h2
    rw [hcur n h1 h2]
    have e1 : 0 ≤ (n : ℤ) % ((t : ℕ) : ℤ) := Int.emod_nonneg _ (by omega)
    have e2 : (n : ℤ) % ((t : ℕ) : ℤ) < ((t : ℕ) : ℤ) :=
      Int.emod_lt_of_pos _ (by omega)
    refine ⟨by omega, by omega, pyIdx_pred_mod t n ht h1, ?_⟩
    exact Nat.mod_lt _ (by omega)
  · intro m a b ha1 ha2 hb1 hb2 haf hbf heq
    rw [hcur a (by omega) haf, hcur b (by omega) hbf,
      pyIdx_pred_mod t a ht (by omega), pyIdx_pred_mod t b ht (by omega)] at heq
    rcases le_total a b with hab | hab
    · have hmod : (a - 1) ≡ (b - 1) [MOD t] := heq
      have hdvd := (Nat.modEq_iff_dvd' (by omega)).1 hmod
      rcases Nat.eq_zero_or_pos ((b - 1) - (a - 1)) with h0 | h0
      · omega
      · have := Nat.le_of_dvd h0 hdvd
        omega
    · have hmod : (b - 1) ≡ (a - 1) [MOD t] := heq.symm
      have hdvd := (Nat.modEq_iff_dvd' (by omega)).1 hmod
      rcases Nat.eq_zero_or_pos ((a - 1) - (b - 1)) with h0 | h0
      · omega
      · have := Nat.le_of_dvd h0 hdvd
        omega

/-- Witness for C10 at `timebin_num = 2`, frame 2 of a three-frame series:
the write index is in range and the wrapped slot is `(2 - 1) % 2`. -/
theorem xsvs_ringbuffer_slots_witness :
    -1 ≤ (runSeries 2 1 1 2 [1] 0 (wFrames3.take 2) (initCross 2)).1.cur 0 - 1 ∧
    (runSeries 2 1 1 2 [1] 0 (wFrames3.take 2) (initCross 2)).1.cur 0 - 1 ≤
      ((2 : ℕ) : ℤ) - 2 ∧
    pyIdx ((runSeries 2 1 1 2 [1] 0 (wFrames3.take 2) (initCross 2)).1.cur 0 - 1) 2 =
      (2 - 1) % 2 ∧
    (2 - 1) % 2 < 2 :=
  (xsvs_ringbuffer_slots 2 1 1 2 [1] 0 (initCross 2) wFrames3 (by decide)).1 2
    (by decide) (by decide)

/-! Exactness of the incremental mean of `_process`. -/

lemma runningMean_mul (h : ℕ → ℚ) :
    ∀ n : ℕ, (n : ℚ) * runningMean h n = ∑ i ∈ Finset.range n, h i := by
  intro n
  induction n with
  | zero => simp [runningMean]
  | succ n ih =>
    rw [Finset.sum_range_succ, ← ih]
    show ((n + 1 : ℕ) : ℚ) * meanUpdQ (n + 1) (runningMean h n) (h n) = _
    unfold meanUpdQ
    push_cast
    have hne : (n : ℚ) + 1 ≠ 0 := by positivity
    field_simp
    ring

/-- C4: folding `n ≥ 1` histogram samples one at a time through the update
`mean + (sample - mean) / k`, with `k` the post-increment frame count,
yields exactly the arithmetic mean of the samples, and the same holds for
the elementwise-squared samples (exact rational arithmetic). -/
theorem runningMean_eq_arith_mean (h : ℕ → ℚ) (n : ℕ) (hn : 1 ≤ n) :
    runningMean h n = (∑ i ∈ Finset.range n, h i) / (n : ℚ) ∧
    runningMean (fun i => (h i) ^ 2) n =
      (∑ i ∈ Finset.range n, (h i) ^ 2) / (n : ℚ) := by
  have key : ∀ g : ℕ → ℚ,
      runningMean g n = (∑ i ∈ Finset.range n, g i) / (n : ℚ) := by
    intro g
    have hm := runningMean_mul g n
    have hpos : (0 : ℚ) < (n : ℚ) := by
      have : (0 : ℕ) < n := by omega
      exact_mod_cast this
    rw [eq_div_iff (ne_of_gt hpos), mul_comm (runningMean g n) ((n : ℕ) : ℚ)]
    exact hm
  exact ⟨key h, key (fun i => (h i) ^ 2)⟩

/-- Witness for C4 at the stream `i / 2` with three samples. -/
theorem runningMean_eq_arith_mean_witness :
    runningMean wSeq 3 = (∑ i ∈ Finset.range 3, wSeq i) / ((3 : ℕ) : ℚ) ∧
    runningMean (fun i => (wSeq i) ^ 2) 3 =
      (∑ i ∈ Finset.range 3, (wSeq i) ^ 2) / ((3 : ℕ) : ℚ) :=
  runningMean_eq_arith_mean wSeq 3 (by decide)

/-! The cross-series running mean of values in the unit interval stays in
the unit interval, so the standard-error radicand is nonnegative. -/

lemma crossUpdQ_mem (i : ℕ) (a s : ℚ) (ha0 : 0 ≤ a) (ha1 : a ≤ 1)
    (hs0 : 0 ≤ s) (hs1 : s ≤ 1) :
    0 ≤ crossUpdQ i a s ∧ crossUpdQ i a s ≤ 1 := by
  have hd : (0 : ℚ) < (i : ℚ) + 1 := by positivity
  have key : crossUpdQ i a s = (a * (i : ℚ) + s) / ((i : ℚ) + 1) := by
    unfold crossUpdQ
    field_simp
    ring
  rw [key]
  constructor
  · apply div_nonneg _ (le_of_lt hd)
    have hai : 0 ≤ a * (i : ℚ) := mul_nonneg ha0 (by positivity)
    linarith
  · rw [div_le_one hd]
    have h1 : a * (i : ℚ) ≤ 1 * (i : ℚ) :=
      mul_le_mul_of_nonneg_right ha1 (by positivity)
    linarith

lemma crossFold_mem (us : List (ℚ × ℕ)) :
    ∀ a : ℚ, 0 ≤ a → a ≤ 1 → (∀ p ∈ us, 0 ≤ p.1 ∧ p.1 ≤ 1) →
      0 ≤ us.foldl (fun acc p => crossUpdQ p.2 acc p.1) a ∧
      us.foldl (fun acc p => crossUpdQ p.2 acc p.1) a ≤ 1 := by
  induction us with
  | nil => intro a h0 h1 hh; exact ⟨h0, h1⟩
  | cons p ps ih =>
    intro a h0 h1 hh
    have hp := hh p (List.mem_cons_self p ps)
    have hstep := crossUpdQ_mem p.2 a p.1 h0 h1 hp.1 hp.2
    simp only [List.foldl_cons]
    exact ih (crossUpdQ p.2 a p.1) hstep.1 hstep.2
      (fun q hq => hh q (List.mem_cons_of_mem p hq))

/-- C7: for a running cross-series mean `m` produced by the fold of
histogram-bin values lying in `[0, 1]` (every bin of a normalized histogram
of a nonempty ROI is such a probability), the radicand `m - m^2` handed to
the square root by lines 191-192 equals its zero-clamped form, so the
standard error equals `sqrt (max 0 (m - m^2))` and the square root never
receives a negative argument. -/
theorem xsvs_std_dev_clamp_noop (us : List (ℚ × ℕ))
    (h : ∀ p ∈ us, 0 ≤ p.1 ∧ p.1 ≤ 1) :
    stdRadQ (us.foldl (fun acc p => crossUpdQ p.2 acc p.1) 0) =
      max 0 (stdRadQ (us.foldl (fun acc p => crossUpdQ p.2 acc p.1) 0)) := by
  obtain ⟨h0, h1⟩ := crossFold_mem us 0 le_rfl zero_le_one h
  have hr : 0 ≤ stdRadQ (us.foldl (fun acc p => crossUpdQ p.2 acc p.1) 0) := by
    unfold stdRadQ
    nlinarith
  exact (max_eq_right hr).symm

/-- Witness for C7 on a concrete two-series stream of bin probabilities. -/
theorem xsvs_std_dev_clamp_noop_witness :
    stdRadQ (wUpds.foldl (fun acc p => crossUpdQ p.2 acc p.1) 0) =
      max 0 (stdRadQ (wUpds.foldl (fun acc p => crossUpdQ p.2 acc p.1) 0)) :=
  xsvs_std_dev_clamp_noop wUpds (by
    intro p hp
    simp only [wUpds, List.mem_cons, List.not_mem_nil, or_false] at hp
    rcases hp with rfl | rfl <;> constructor <;> norm_num)

/-! Helper facts for the empty-ROI histogram. -/

lemma map_const_none (l : List ℕ) :
    (l.map fun _ => (none : Option ℚ)) = List.replicate l.length none := by
  induction l with
  | nil => rfl
  | cons a l ih => simp [ih, List.replicate_succ]

lemma histNormed_nil (edges : List ℚ) :
    histNormed edges [] = List.replicate (edges.length - 1) none := by
  unfold histNormed
  have htot : ((histCounts edges []).map (fun n : ℕ => (n : ℚ))).sum = 0 := by
    apply List.sum_eq_zero
    intro q hq
    rw [List.mem_map] at hq
    obtain ⟨cnt, hcnt, rfl⟩ := hq
    unfold histCounts at hcnt
    rw [List.mem_map] at hcnt
    obtain ⟨b, hb, hcnt2⟩ := hcnt
    rw [← hcnt2]
    by_cases h2 : b + 2 = edges.length <;> simp [h2]
  simp only [htot, mul_zero]
  simp only [qdivNaN, eq_self_iff_true, if_true]
  rw [map_const_none, List.length_range]

lemma roiData_of_not_mem (labels : List ℕ) (v : Frame) (j : ℕ)
    (h : (j + 1) ∉ labels) : roiData labels v j = [] := by
  unfold roiData
  rw [List.filter_eq_nil.2, List.map_nil]
  intro p hp
  have hm := List.mem_zip hp
  simp only [beq_iff_eq]
  intro heq
  exact h (heq ▸ hm.1)

lemma zipWith_meanUpd_none (n : ℕ) :
    ∀ (a : List (Option ℚ)) (m : ℕ),
      List.zipWith (meanUpd n) a (List.replicate m none) =
        List.replicate (min a.length m) none := by
  intro a
  induction a with
  | nil => intro m; simp
  | cons x xs ih =>
    intro m
    cases m with
    | zero => simp
    | succ m =>
      rw [List.replicate_succ, List.zipWith_cons_cons, ih m]
      have hx : meanUpd n x none = none := by cases x <;> rfl
      rw [hx]
      simp [List.length_cons, Nat.succ_min_succ, List.replicate_succ]

/-- Counterexample for C5: with `labels = [1]` and two ROIs, ROI 2 has zero
member pixels; the histogram-engine step leaves that (level, ROI) cell as a
NaN-filled vector (`[none, none]`), which is not the claimed NaN-free
zero-filled vector (`[some 0, some 0]`). -/
theorem procOne_zero_pixel_roi_cex :
    (procOne 2 [1] (binEdgesQ 3 0) 0 0 (initX 2 [1] 3)).cts 0 1 = [none, none] ∧
    ([none, none] : List (Option ℚ)) ≠ [some 0, some 0] := by
  constructor
  · show (if (0 : ℕ) = 0 ∧ 1 < 2 then
        List.zipWith (meanUpd ((initX 2 [1] 3).img 0 + 1)) ((initX 2 [1] 3).cts 0 1)
          (histNormed (binEdgesQ 3 0) (roiData [1] ((initX 2 [1] 3).buf 0 0) 1))
      else (initX 2 [1] 3).cts 0 1) = [none, none]
    rw [if_pos ⟨rfl, by omega⟩,
      roiData_of_not_mem [1] _ 1 (by decide), histNormed_nil, zipWith_meanUpd_none]
    rfl
  · simp

/-- Amended C5: for a ROI `j` with zero member pixels, the histogram-engine
step produces an all-NaN (non-finite) contribution for that (level, ROI)
cell — the `0/0` of the empty normalized histogram — rather than a
zero-filled one; no exception is raised (the step is total) and the other
ROIs are processed normally. -/
theorem procOne_zero_pixel_roi_nan (R : ℕ) (labels : List ℕ) (edges : List ℚ)
    (level bufNo : ℕ) (s : XState) (j : ℕ) (hj : j < R)
    (hlab : (j + 1) ∉ labels) :
    (procOne R labels edges level bufNo s).cts level j =
      List.replicate (min ((s.cts level j).length) (edges.length - 1)) none := by
  show (if level = level ∧ j < R then
      List.zipWith (meanUpd (s.img level + 1)) (s.cts level j)
        (histNormed edges (roiData labels (s.buf level bufNo) j))
    else s.cts level j) = _
  rw [if_pos ⟨rfl, hj⟩, roiData_of_not_mem labels _ j hlab, histNormed_nil,
    zipWith_meanUpd_none]

/-- Witness for the amended C5 at the concrete counterexample input. -/
theorem procOne_zero_pixel_roi_nan_witness :
    (procOne 2 [1] (binEdgesQ 3 0) 0 0 (initX 2 [1] 3)).cts 0 1 =
      List.replicate
        (min (((initX 2 [1] 3).cts 0 1).length) ((binEdgesQ 3 0).length - 1)) none :=
  procOne_zero_pixel_roi_nan 2 [1] (binEdgesQ 3 0) 0 0 (initX 2 [1] 3) 1
    (by decide) (by decide)

/-- Counterexample for C6: with `max_cts = 2` and level 1 the claimed
inclusive endpoint `max_cts * 2^1 = 4` (base 2) is not an edge, and neither
is the claimed endpoint `max_cts * 3^1 = 6` for base `timebin_num = 3`:
the code builds `np.arange(2 * 2^1) = 0..3` whatever the base. -/
theorem binEdges_span_cex :
    ¬ ((2 * 2 ^ 1) ∈ binEdges 2 1) ∧ ¬ ((2 * 3 ^ 1) ∈ binEdges 2 1) := by
  constructor
  · decide
  · decide

/-- Amended C6: the bin edges at level `l` are exactly the integers
`0 .. max_cts * 2^l - 1` (upper endpoint `max_cts * 2^l` excluded), with the
base hardcoded to 2 regardless of `timebin_num` (the definition takes no
`timebin_num` argument). -/
theorem binEdges_mem_iff (max_cts lvl k : ℕ) :
    k ∈ binEdges max_cts lvl ↔ k < max_cts * 2 ^ lvl := by
  simp [binEdges, List.mem_range]

/-- Counterexample for C8: with a single ROI of zero mean intensity the
function returns normally and每 entry of the normalized edges is non-finite
(`0/0` is NaN, `1/0` is an infinity); no division-by-zero error is reported
to the caller. -/
theorem normalize_bin_edges_zero_mean_cex :
    (normalize_bin_edges 1 1 2 [0]).1 0 0 = [none, none] := by
  show (if 0 < 1 ∧ 0 < 1 then normEdgeEntry 2 [0] 0 0 else []) = [none, none]
  rw [if_pos ⟨by omega, by omega⟩]
  unfold normEdgeEntry
  rw [show (fun k : ℕ => qdivNaN (k : ℚ) (([0] : List ℚ).getD 0 0 * 2 ^ 0)) =
      fun _ : ℕ => (none : Option ℚ) by
    funext k; simp [qdivNaN]]
  rw [map_const_none, List.length_range]
  rfl

/-- Amended C8: whenever `mean_roi[j] = 0`, `normalize_bin_edges` returns
normally and every entry of that ROI's normalized edge vector is non-finite
(NaN for the first edge, an infinity for the rest); no error is reported. -/
theorem normalize_bin_edges_zero_mean (num_times num_rois max_cts : ℕ)
    (mean_roi : List ℚ) (i j : ℕ) (hi : i < num_times) (hj : j < num_rois)
    (hz : mean_roi.getD j 0 = 0) :
    (normalize_bin_edges num_times num_rois max_cts mean_roi).1 i j =
      List.replicate (max_cts * 2 ^ i) none := by
  show (if i < num_times ∧ j < num_rois then normEdgeEntry max_cts mean_roi i j
    else []) = _
  rw [if_pos ⟨hi, hj⟩]
  unfold normEdgeEntry
  rw [show (fun k : ℕ => qdivNaN (k : ℚ) (mean_roi.getD j 0 * 2 ^ i)) =
      fun _ : ℕ => (none : Option ℚ) by
    funext k; rw [hz]; simp [qdivNaN]]
  rw [map_const_none, List.length_range]

/-- Witness for the amended C8 at the concrete counterexample input. -/
theorem normalize_bin_edges_zero_mean_witness :
    (normalize_bin_edges 1 1 2 [0]).1 0 0 = List.replicate (2 * 2 ^ 0) none :=
  normalize_bin_edges_zero_mean 1 1 2 [0] 0 0 (by decide) (by decide) (by decide)

/-! Behavior of the outer series loop: `speckle_cts_std_dev` is assigned
exactly when at least one frame has been processed. -/

lemma frameStep_stdRad (t L R mc : ℕ) (labels : List ℕ) (i : ℕ)
    (p : XState × Cross) (v : Frame) :
    ((frameStep t L R mc labels i p v).2.stdRad).isSome = true := rfl

lemma foldl_frameStep_stdRad (t L R mc : ℕ) (labels : List ℕ) (i : ℕ) :
    ∀ (frames : List Frame) (p : XState × Cross),
      ((frames.foldl (frameStep t L R mc labels i) p).2.stdRad = none ↔
        p.2.stdRad = none ∧ frames = []) := by
  intro frames
  induction frames with
  | nil => intro p; simp
  | cons v fs ih =>
    intro p
    rw [List.foldl_cons, ih (frameStep t L R mc labels i p v)]
    constructor
    · rintro ⟨h1, h2⟩
      exfalso
      have hs := frameStep_stdRad t L R mc labels i p v
      rw [h1] at hs
      simp at hs
    · rintro ⟨h1, h2⟩
      simp at h2

lemma xsvsCross_stdRad_none (t L R mc : ℕ) (labels : List ℕ) :
    ∀ (sets : List (ℕ × List Frame)) (c : Cross),
      (sets.foldl (seriesStep t L R mc labels) c).stdRad = none ↔
        c.stdRad = none ∧ ∀ p ∈ sets, p.2 = ([] : List Frame) := by
  intro sets
  induction sets with
  | nil => intro c; simp
  | cons p ps ih =>
    intro c
    rw [List.foldl_cons, ih (seriesStep t L R mc labels c p)]
    have hstep : (seriesStep t L R mc labels c p).stdRad = none ↔
        c.stdRad = none ∧ p.2 = [] := by
      show ((p.2.foldl (frameStep t L R mc labels p.1)
        (initX t labels mc, c)).2.stdRad = none) ↔ _
      rw [foldl_frameStep_stdRad]
    rw [hstep]
    constructor
    · rintro ⟨⟨h1, h2⟩, h3⟩
      refine ⟨h1, ?_⟩
      intro q hq
      rcases List.mem_cons.1 hq with rfl | hq2
      · exact h2
      · exact h3 q hq2
    · rintro ⟨h1, h2⟩
      exact ⟨⟨h1, h2 p (List.mem_cons_self p ps)⟩,
        fun q hq => h2 q (List.mem_cons_of_mem p hq)⟩

lemma xsvsRun_ok_iff (t L R mc : ℕ) (labels : List ℕ)
    (sets : List (ℕ × List Frame)) :
    returnsNormally (xsvsRun t L R mc labels sets) = true ↔
      ¬ (xsvsCross t L R mc labels sets).stdRad = none := by
  unfold xsvsRun returnsNormally
  cases hsd : (xsvsCross t L R mc labels sets).stdRad with
  | none => simp [hsd]
  | some sd => simp [hsd]

/-- Counterexample for C9: a run whose only series has an empty frame
stream does not return normally — `speckle_cts_std_dev` is never assigned,
so the return statement raises a `NameError`. -/
theorem xsvs_empty_run_cex :
    returnsNormally (xsvsRun 2 1 1 4 [1] [(0, [])]) = false := rfl

/-- Amended C9: an empty series leaves the cross-series accumulated state
exactly as it was (its contribution is nothing, other series are intact),
and `xsvs` returns normally if and only if some series of the run has a
nonempty frame stream; when every series is empty the return statement
raises a `NameError` because `speckle_cts_std_dev` was never assigned. -/
theorem xsvs_empty_series_behavior (t L R mc : ℕ) (labels : List ℕ)
    (pre post : List (ℕ × List Frame)) (i : ℕ) :
    xsvsCross t L R mc labels (pre ++ (i, []) :: post) =
      xsvsCross t L R mc labels (pre ++ post) ∧
    (returnsNormally (xsvsRun t L R mc labels (pre ++ (i, []) :: post)) = true ↔
      ∃ p ∈ pre ++ post, p.2 ≠ ([] : List Frame)) := by
  have hstate : xsvsCross t L R mc labels (pre ++ (i, []) :: post) =
      xsvsCross t L R mc labels (pre ++ post) := by
    unfold xsvsCross
    rw [List.foldl_append, List.foldl_append, List.foldl_cons]
    rfl
  refine ⟨hstate, ?_⟩
  rw [xsvsRun_ok_iff, hstate]
  rw [show xsvsCross t L R mc labels (pre ++ post) =
    (pre ++ post).foldl (seriesStep t L R mc labels) (initCross mc) from rfl]
  rw [xsvsCross_stdRad_none]
  have hinit : (initCross mc).stdRad = none := rfl
  rw [hinit]
  simp only [eq_self_iff_true, true_and]
  push_neg
  rfl

/-- C1 is violated by the code: the cross-series fold of lines 187-192 sits
inside the frame loop, so for a single series (key 0) of two frames it
executes twice — not once after the stream is consumed. -/
theorem xsvs_cross_fold_twice_for_two_frames :
    (xsvsCross 2 1 1 4 [1] [(0, [[1], [1]])]).folds = 2 ∧
    ¬ (xsvsCross 2 1 1 4 [1] [(0, [[1], [1]])]).folds = 1 := by
  constructor
  · rfl
  · rw [show (xsvsCross 2 1 1 4 [1] [(0, [[1], [1]])]).folds = 2 from rfl]
    omega
